import Mathlib

/-!
Verification of the detection-decoding pipeline of
`detection/models/bbox_heads/bbox_head.py` (class `BBoxHead`, in particular
`_get_bboxes_single`).  The tensor computations are shallowly embedded as
computable functions over lists of rationals: per-region class probabilities,
per-region per-class box deltas and region proposals come in as lists, and
the pipeline (argmax class selection, class-specific delta decoding, clipping
to the normalized window, background and confidence filtering, per-class
greedy non-maximum suppression, global top-k truncation, scaling to pixel
coordinates) is reproduced step by step.

Two remarks on fidelity:

* The source body of `_get_bboxes_single` reads the name `deltas` at line 119
  although its parameter is called `rcnn_deltas`, and the name `config` at
  line 166 although no such module-level name exists; both reads are recorded
  by the scoping model below (`getBBoxesSingleLocalNames`,
  `bboxHeadModuleLevelNames`).  The embedding resolves `deltas` to the
  parameter `rcnn_deltas` (the only delta tensor passed in by `get_bboxes`)
  and `config.DETECTION_MAX_INSTANCES` to an explicit configuration field
  `detectionMaxInstances`, which is the spec's `maxTotalDetections`.

* `transforms.delta2bbox` and `transforms.bbox_clip` live in
  `detection/core/bbox/transforms.py`, which is not part of the provided
  sources; they are modelled from the spec (section 4.1).  The real
  exponential applied to the log-scale delta components is abstracted as a
  parameter `e : ℚ → ℚ`; theorems that depend on its value take hypotheses
  such as `e 0 = 1` or `∀ x, 0 ≤ e x`, which hold for the exponential.
-/

namespace BBoxHead

/-- A box `(y1, x1, y2, x2)`, the row layout used for `rois` and
`refined_rois` in the source. -/
structure Box where
  y1 : ℚ
  x1 : ℚ
  y2 : ℚ
  x2 : ℚ
deriving DecidableEq

/-- One regression offset row `(dy, dx, log dh, log dw)`. -/
structure Delta where
  dy : ℚ
  dx : ℚ
  dh : ℚ
  dw : ℚ
deriving DecidableEq

/-- One output row of `_get_bboxes_single`:
`(y1, x1, y2, x2, class_id, score)` in image coordinates. -/
structure Detection where
  y1 : ℚ
  x1 : ℚ
  y2 : ℚ
  x2 : ℚ
  classId : ℕ
  score : ℚ
deriving DecidableEq

/-- The box part of a detection row. -/
def Detection.box (d : Detection) : Box := ⟨d.y1, d.x1, d.y2, d.x2⟩

/-- Default box used for out-of-range gathers. -/
def boxZero : Box := ⟨0, 0, 0, 0⟩

/-- The all-zero delta. -/
def deltaZero : Delta := ⟨0, 0, 0, 0⟩

/-- The decoding configuration of `BBoxHead.__init__` plus the top-k cap.
`minConfidence` is optional because the source tests it for Python
truthiness (`if self.min_confidence:`), under which both `None` and `0.0`
disable the confidence filter.  `detectionMaxInstances` models the
`config.DETECTION_MAX_INSTANCES` value read at line 166 (the spec's
`maxTotalDetections`), made an explicit field as spec section 9 requires. -/
structure Cfg where
  minConfidence : Option ℚ
  nmsThreshold : ℚ
  maxInstances : ℕ
  detectionMaxInstances : ℕ
  targetMeans : Delta
  targetStds : Delta

/-- The constructor defaults: `min_confidence=0.7`, `nms_threshold=0.3`,
`max_instances=100`, `DETECTION_MAX_INSTANCES=100` (spec default),
`target_means=(0,0,0,0)`, `target_stds=(0.1,0.1,0.2,0.2)`. -/
def cfgDefault : Cfg :=
  ⟨some (7/10), 3/10, 100, 100, deltaZero, ⟨1/10, 1/10, 1/5, 1/5⟩⟩

/-- Index of the first maximal entry of a row, as computed by
`tf.argmax(rcnn_probs, axis=1)` (ties resolve to the lowest index). -/
def argmaxIdx (l : List ℚ) : ℕ :=
  (List.range l.length).foldl
    (fun best i => if l.getD best 0 < l.getD i 0 then i else best) 0

/-- Probability of the top class of a row: the source's
`class_scores = tf.gather_nd(rcnn_probs, indices)`. -/
def topScore (l : List ℚ) : ℚ := l.getD (argmaxIdx l) 0

/-- Class-specific deltas, one row per region:
`deltas_specific = tf.gather_nd(deltas, indices)` at line 119.  The name
`deltas` is unbound there (claim C2); it is resolved to the parameter
`rcnn_deltas`. -/
def deltasSpecific (deltas : List (List Delta)) (cids : List ℕ) : List Delta :=
  (List.range cids.length).map
    (fun i => (deltas.getD i []).getD (cids.getD i 0) deltaZero)

/-- Modelled from the spec: `transforms.delta2bbox` (section 4.1) is not
among the provided sources.  Undo standardization (`delta' = delta * stds +
means`), shift the center by `delta'[0:2] * size`, scale the size by
`e` applied to `delta'[2:4]` (where `e` abstracts the exponential), and
convert back to corner form. -/
def delta2bbox (e : ℚ → ℚ) (b : Box) (d : Delta) (means stds : Delta) : Box :=
  let dy := d.dy * stds.dy + means.dy
  let dx := d.dx * stds.dx + means.dx
  let dh := d.dh * stds.dh + means.dh
  let dw := d.dw * stds.dw + means.dw
  let cy := (b.y1 + b.y2) / 2
  let cx := (b.x1 + b.x2) / 2
  let h := b.y2 - b.y1
  let w := b.x2 - b.x1
  let cy2 := cy + dy * h
  let cx2 := cx + dx * w
  let h2 := h * e dh
  let w2 := w * e dw
  ⟨cy2 - h2 / 2, cx2 - w2 / 2, cy2 + h2 / 2, cx2 + w2 / 2⟩

/-- Modelled from the spec: `transforms.bbox_clip` (section 4.1) is not
among the provided sources.  Each coordinate is clamped independently into
the window, `y` coordinates into `[w.y1, w.y2]` and `x` coordinates into
`[w.x1, w.x2]`. -/
def bboxClip (w b : Box) : Box :=
  ⟨max (min b.y1 w.y2) w.y1, max (min b.x1 w.x2) w.x1,
   max (min b.y2 w.y2) w.y1, max (min b.x2 w.x2) w.x1⟩

/-- The clipping window of line 125:
`tf.constant([0., 0., H/H, W/W])`. -/
def window (H W : ℚ) : Box := ⟨0, 0, H / H, W / W⟩

/-- Scaling of a normalized box to image coordinates, the
`* tf.constant([H, W, H, W])` factor of line 173. -/
def scaleBox (H W : ℚ) (b : Box) : Box := ⟨H * b.y1, W * b.x1, H * b.y2, W * b.x2⟩

/-- Intersection area of two axis-aligned boxes. -/
def interArea (a b : Box) : ℚ :=
  max 0 (min a.y2 b.y2 - max a.y1 b.y1) * max 0 (min a.x2 b.x2 - max a.x1 b.x1)

/-- Area of a box. -/
def area (a : Box) : ℚ := (a.y2 - a.y1) * (a.x2 - a.x1)

/-- Intersection over union, defined as 0 when the union area is 0
(spec section 4.3). -/
def iou (a b : Box) : ℚ :=
  if area a + area b - interArea a b = 0 then 0
  else interArea a b / (area a + area b - interArea a b)

/-- Indices of non-background regions, ascending:
`keep = tf.where(class_ids > 0)[:, 0]` at line 128. -/
def bgKeep (cids : List ℕ) : List ℕ :=
  (List.range cids.length).filter (fun i => 0 < cids.getD i 0)

/-- Indices of regions whose top score passes the threshold, ascending:
`conf_keep = tf.where(class_scores >= self.min_confidence)[:, 0]`. -/
def confKeep (scores : List ℚ) (c : ℚ) : List ℕ :=
  (List.range scores.length).filter (fun i => c ≤ scores.getD i 0)

/-- `tf.sets.set_intersection` on two index lists, the first being sorted
and duplicate-free; the dense result is the sorted intersection, i.e. the
first list filtered by membership in the second. -/
def setIntersect (a b : List ℕ) : List ℕ := a.filter (fun i => i ∈ b)

/-- Lines 128-135: background filter, then, only when `self.min_confidence`
is truthy (neither `None` nor `0`), intersection with the confidence
filter. -/
def keepPre (mc : Option ℚ) (cids : List ℕ) (scores : List ℚ) : List ℕ :=
  match mc with
  | none => bgKeep cids
  | some c => if c = 0 then bgKeep cids
              else setIntersect (bgKeep cids) (confKeep scores c)

/-- `tf.gather` on a list: out-of-range indices give the default `d`. -/
def gather {α : Type} (d : α) (l : List α) (ix : List ℕ) : List α :=
  ix.map (fun j => l.getD j d)

/-- Positions of the rows of the given class:
`ixs = tf.where(tf.equal(pre_nms_class_ids, class_id))[:, 0]`. -/
def classIxs (cids : List ℕ) (cid : ℕ) : List ℕ :=
  (List.range cids.length).filter (fun j => cids.getD j 0 = cid)

/-- Stable insertion (descending keys; on ties the inserted element, which
originates earlier in the traversal, comes first). -/
def insertDesc (key : ℕ → ℚ) (x : ℕ) : List ℕ → List ℕ
  | [] => [x]
  | y :: ys => if key y ≤ key x then x :: y :: ys else y :: insertDesc key x ys

/-- Stable sort by descending key; ties keep the original order, the
behavior of `tf.nn.top_k(..., sorted=True)` and of the score ordering
inside `tf.image.non_max_suppression`. -/
def sortDesc (key : ℕ → ℚ) (l : List ℕ) : List ℕ := l.foldr (insertDesc key) []

/-- Greedy suppression core of `tf.image.non_max_suppression`: repeatedly
select the first remaining candidate (the list is sorted by descending
score) while fewer than `m` are selected, and drop every later candidate
whose IoU with the selection exceeds `t`.  The first argument of the
recursion is fuel, always instantiated with the length of the candidate
list, which only shrinks. -/
def nmsStep (boxes : List Box) (t : ℚ) : ℕ → ℕ → List ℕ → List ℕ
  | 0, _, _ => []
  | _ + 1, 0, _ => []
  | _ + 1, _ + 1, [] => []
  | fuel + 1, m + 1, p :: ps =>
      p :: nmsStep boxes t fuel m
        (ps.filter (fun q => iou (boxes.getD p boxZero) (boxes.getD q boxZero) ≤ t))

/-- `tf.image.non_max_suppression(boxes, scores, max_output_size, t)`:
indices (into `boxes`) of the kept elements, by descending score. -/
def nmsSelect (boxes : List Box) (scores : List ℚ) (t : ℚ) (m : ℕ) : List ℕ :=
  let order := sortDesc (fun p => scores.getD p 0) (List.range scores.length)
  nmsStep boxes t order.length m order

/-- The inner `nms_keep_map(class_id)` of lines 144-160: gather the rows of
the class, run NMS on them, and map the kept positions back to original
region indices through `ixs` and `keep`. -/
def nmsKeepMap (keep pcids : List ℕ) (pscores : List ℚ) (prois : List Box)
    (t : ℚ) (m : ℕ) (cid : ℕ) : List ℕ :=
  let ixs := classIxs pcids cid
  let sel := nmsSelect (gather boxZero prois ixs) (gather 0 pscores ixs) t m
  gather 0 keep (gather 0 ixs sel)

/-- First-occurrence deduplication, the order returned by `tf.unique`. -/
def dedupFirst (l : List ℕ) : List ℕ :=
  l.foldl (fun acc x => if x ∈ acc then acc else acc ++ [x]) []

/-- Lines 137-159: gather the surviving rows, then map `nms_keep_map` over
the unique surviving class ids and concatenate the per-class results. -/
def nmsKeepOf (keep cids : List ℕ) (scores : List ℚ) (refined : List Box)
    (t : ℚ) (m : ℕ) : List ℕ :=
  let pcids := gather 0 cids keep
  let pscores := gather 0 scores keep
  let prois := gather boxZero refined keep
  ((dedupFirst pcids).map (nmsKeepMap keep pcids pscores prois t m)).flatten

/-- Lines 161-164: the post-NMS keep set, the intersection of the pre-NMS
keep set with the union of the per-class NMS survivors. -/
def keepAfterNMS (mc : Option ℚ) (cids : List ℕ) (scores : List ℚ)
    (refined : List Box) (t : ℚ) (m : ℕ) : List ℕ :=
  setIntersect (keepPre mc cids scores)
    (nmsKeepOf (keepPre mc cids scores) cids scores refined t m)

/-- Lines 165-170: keep the `min(count, roiCount)` highest-scoring survivors,
by descending score (`tf.nn.top_k(..., sorted=True)`), where `roiCount` is
the `config.DETECTION_MAX_INSTANCES` read at line 166. -/
def topKSel (scores : List ℚ) (keep : List ℕ) (roiCount : ℕ) : List ℕ :=
  let csk := gather 0 scores keep
  let k := min csk.length roiCount
  let topIds := (sortDesc (fun p => csk.getD p 0) (List.range csk.length)).take k
  gather 0 keep topIds

/-- One output row of lines 172-176: the refined box scaled by
`[H, W, H, W]`, the class id and the score of region `i`. -/
def mkDet (H W : ℚ) (refined : List Box) (cids : List ℕ) (scores : List ℚ)
    (i : ℕ) : Detection :=
  let b := scaleBox H W (refined.getD i boxZero)
  ⟨b.y1, b.x1, b.y2, b.x2, cids.getD i 0, scores.getD i 0⟩

/-- The filtering, suppression, ranking and assembly part of
`_get_bboxes_single` (lines 128-178), over the already decoded and clipped
boxes. -/
def decodeCore (cfg : Cfg) (cids : List ℕ) (scores : List ℚ)
    (refined : List Box) (H W : ℚ) : List Detection :=
  (topKSel scores
      (keepAfterNMS cfg.minConfidence cids scores refined
        cfg.nmsThreshold cfg.maxInstances)
      cfg.detectionMaxInstances).map
    (mkDet H W refined cids scores)

/-- Lines 120-126: decode each region with its top-class delta and clip to
the normalized window. -/
def refinedRoisOf (e : ℚ → ℚ) (cfg : Cfg) (probs : List (List ℚ))
    (deltas : List (List Delta)) (rois : List Box) (H W : ℚ) : List Box :=
  ((rois.zipWith (fun r d => delta2bbox e r d cfg.targetMeans cfg.targetStds)
      (deltasSpecific deltas (probs.map argmaxIdx)))).map
    (bboxClip (window H W))

/-- `_get_bboxes_single(rcnn_probs, rcnn_deltas, rois, img_shape)`:
the full single-image decoding pipeline. -/
def getBBoxesSingle (e : ℚ → ℚ) (cfg : Cfg) (probs : List (List ℚ))
    (deltas : List (List Delta)) (rois : List Box) (shape : ℚ × ℚ) :
    List Detection :=
  decodeCore cfg (probs.map argmaxIdx) (probs.map topScore)
    (refinedRoisOf e cfg probs deltas rois shape.1 shape.2) shape.1 shape.2

/-- Names bound in the local scope of `_get_bboxes_single` (its parameters
and every name assigned in its body, lines 103-178). -/
def getBBoxesSingleLocalNames : List String :=
  ["self", "rcnn_probs", "rcnn_deltas", "rois", "img_shape",
   "H", "W", "class_ids", "indices", "class_scores", "deltas_specific",
   "refined_rois", "window", "keep", "conf_keep", "pre_nms_class_ids",
   "pre_nms_scores", "pre_nms_rois", "unique_pre_nms_class_ids",
   "nms_keep_map", "nms_keep", "roi_count", "class_scores_keep",
   "num_keep", "top_ids", "detections"]

/-- Module-level names of `bbox_head.py`: the two imports and the class
definition (`layers` is a module-level alias for `tf.keras.layers`). -/
def bboxHeadModuleLevelNames : List String :=
  ["tf", "layers", "transforms", "BBoxHead"]

/-! ### Basic lemmas about the embedded operations -/

/-- Decoding with the all-zero delta under zero means is the identity,
provided the abstracted exponential sends `0` to `1`. -/
theorem delta2bbox_zero (e : ℚ → ℚ) (he : e 0 = 1) (stds : Delta) (r : Box) :
    delta2bbox e r deltaZero deltaZero stds = r := by
  cases r with
  | mk y1 x1 y2 x2 =>
    simp only [delta2bbox, deltaZero, zero_mul, add_zero, he, mul_one, Box.mk.injEq]
    refine ⟨by ring, by ring, by ring, by ring⟩

theorem interArea_comm (a b : Box) : interArea a b = interArea b a := by
  simp only [interArea, min_comm, max_comm]

theorem iou_comm (a b : Box) : iou a b = iou b a := by
  unfold iou
  rw [interArea_comm, add_comm (area a) (area b)]

theorem area_scale (H W : ℚ) (b : Box) :
    area (scaleBox H W b) = H * W * area b := by
  simp only [area, scaleBox]
  ring

theorem max_zero_mul (H z : ℚ) (hH : 0 ≤ H) :
    max 0 (H * z) = H * max 0 z := by
  rw [mul_max_of_nonneg _ _ hH, mul_zero]

theorem interArea_scale (H W : ℚ) (hH : 0 ≤ H) (hW : 0 ≤ W) (a b : Box) :
    interArea (scaleBox H W a) (scaleBox H W b) = H * W * interArea a b := by
  simp only [interArea, scaleBox]
  rw [← mul_min_of_nonneg _ _ hH, ← mul_max_of_nonneg _ _ hH, ← mul_sub,
      ← mul_min_of_nonneg _ _ hW, ← mul_max_of_nonneg _ _ hW, ← mul_sub,
      max_zero_mul _ _ hH, max_zero_mul _ _ hW]
  ring

theorem iou_scale (H W : ℚ) (hH : 0 < H) (hW : 0 < W) (a b : Box) :
    iou (scaleBox H W a) (scaleBox H W b) = iou a b := by
  have hHW : H * W ≠ 0 := mul_ne_zero hH.ne' hW.ne'
  simp only [iou, area_scale, interArea_scale H W hH.le hW.le]
  have hfac : H * W * area a + H * W * area b - H * W * interArea a b
      = H * W * (area a + area b - interArea a b) := by ring
  rw [hfac]
  rcases eq_or_ne (area a + area b - interArea a b) 0 with h0 | h0
  · simp [h0]
  · rw [if_neg (mul_ne_zero hHW h0), if_neg h0, mul_div_mul_left _ _ hHW]

/-! ### List utilities -/

theorem getD_lt_mem {α : Type} (d : α) :
    ∀ (l : List α) (n : ℕ), n < l.length → l.getD n d ∈ l := by
  intro l
  induction l with
  | nil => intro n h; simp at h
  | cons x xs ih =>
    intro n h
    cases n with
    | zero => exact List.mem_cons_self _ _
    | succ n2 => exact List.mem_cons_of_mem _ (ih n2 (by simpa using h))

theorem gather_length {α : Type} (d : α) (l : List α) (ix : List ℕ) :
    (gather d l ix).length = ix.length := List.length_map _ _

theorem gather_getD {α : Type} (d d2 : α) (l : List α) :
    ∀ (ix : List ℕ) (p : ℕ), p < ix.length →
      (gather d l ix).getD p d2 = l.getD (ix.getD p 0) d := by
  intro ix
  induction ix with
  | nil => intro p h; simp at h
  | cons j js ih =>
    intro p h
    cases p with
    | zero => rfl
    | succ p2 => exact ih p2 (by simpa using h)

theorem getD_inj {α : Type} (d : α) :
    ∀ {l : List α}, l.Nodup → ∀ {i j : ℕ}, i < l.length → j < l.length →
      l.getD i d = l.getD j d → i = j := by
  intro l
  induction l with
  | nil => intro _ i j hi; simp at hi
  | cons x xs ih =>
    intro hnd i j hi hj he
    have hx : x ∉ xs := (List.nodup_cons.mp hnd).1
    cases i with
    | zero =>
      cases j with
      | zero => rfl
      | succ j2 =>
        exfalso
        simp only [List.getD_cons_zero, List.getD_cons_succ] at he
        refine hx ?_
        rw [he]
        exact getD_lt_mem d xs j2 (by simpa using hj)
    | succ i2 =>
      cases j with
      | zero =>
        exfalso
        simp only [List.getD_cons_zero, List.getD_cons_succ] at he
        refine hx ?_
        rw [← he]
        exact getD_lt_mem d xs i2 (by simpa using hi)
      | succ j2 =>
        simp only [List.getD_cons_succ] at he
        have := ih (List.nodup_cons.mp hnd).2 (by simpa using hi) (by simpa using hj) he
        omega

theorem get?_inj_of_nodup {α : Type} :
    ∀ {l : List α}, l.Nodup → ∀ {i j : ℕ} {a : α},
      l.get? i = some a → l.get? j = some a → i = j := by
  intro l
  induction l with
  | nil => intro _ i j a hi; simp at hi
  | cons x xs ih =>
    intro hnd i j a hi hj
    have hx : x ∉ xs := (List.nodup_cons.mp hnd).1
    cases i with
    | zero =>
      cases j with
      | zero => rfl
      | succ j2 =>
        exfalso
        have hax : x = a := by simpa using hi
        refine hx ?_
        rw [hax]
        exact List.get?_mem (by simpa using hj)
    | succ i2 =>
      cases j with
      | zero =>
        exfalso
        have hax : x = a := by simpa using hj
        refine hx ?_
        rw [hax]
        exact List.get?_mem (by simpa using hi)
      | succ j2 =>
        have := ih (List.nodup_cons.mp hnd).2 (by simpa using hi) (by simpa using hj)
        omega

/-! ### Sorting and suppression lemmas -/

theorem insertDesc_perm (key : ℕ → ℚ) (x : ℕ) :
    ∀ l : List ℕ, (insertDesc key x l).Perm (x :: l) := by
  intro l
  induction l with
  | nil => exact List.Perm.refl _
  | cons y ys ih =>
    rw [insertDesc]
    split
    · exact List.Perm.refl _
    · exact (ih.cons y).trans (List.Perm.swap x y ys)

theorem sortDesc_perm (key : ℕ → ℚ) :
    ∀ l : List ℕ, (sortDesc key l).Perm l := by
  intro l
  induction l with
  | nil => exact List.Perm.refl _
  | cons x xs ih => exact (insertDesc_perm key x (sortDesc key xs)).trans (ih.cons x)

theorem mem_sortDesc {key : ℕ → ℚ} {l : List ℕ} {p : ℕ} :
    p ∈ sortDesc key l ↔ p ∈ l := (sortDesc_perm key l).mem_iff

theorem sortDesc_nodup (key : ℕ → ℚ) {l : List ℕ} (h : l.Nodup) :
    (sortDesc key l).Nodup := (sortDesc_perm key l).nodup_iff.mpr h

theorem nmsStep_subset (boxes : List Box) (t : ℚ) :
    ∀ (fuel m : ℕ) (l : List ℕ) (q : ℕ), q ∈ nmsStep boxes t fuel m l → q ∈ l := by
  intro fuel
  induction fuel with
  | zero => intro m l q h; simp [nmsStep] at h
  | succ f ih =>
    intro m l q h
    cases m with
    | zero => simp [nmsStep] at h
    | succ m2 =>
      cases l with
      | nil => simp [nmsStep] at h
      | cons p ps =>
        rw [nmsStep] at h
        rcases List.mem_cons.mp h with rfl | h2
        · exact List.mem_cons_self _ _
        · exact List.mem_cons_of_mem _ (List.mem_of_mem_filter (ih m2 _ q h2))

theorem nmsStep_pairwise (boxes : List Box) (t : ℚ) :
    ∀ (fuel m : ℕ) (l : List ℕ),
      (nmsStep boxes t fuel m l).Pairwise
        (fun p q => iou (boxes.getD p boxZero) (boxes.getD q boxZero) ≤ t) := by
  intro fuel
  induction fuel with
  | zero => intro m l; simp [nmsStep]
  | succ f ih =>
    intro m l
    cases m with
    | zero => simp [nmsStep]
    | succ m2 =>
      cases l with
      | nil => simp [nmsStep]
      | cons p ps =>
        rw [nmsStep]
        refine List.Pairwise.cons ?_ (ih m2 _)
        intro q hq
        have hq2 := nmsStep_subset boxes t f m2 _ q hq
        have hmem := List.mem_filter.mp hq2
        exact of_decide_eq_true hmem.2

theorem nmsSelect_mem_lt {boxes : List Box} {scores : List ℚ} {t : ℚ} {m p : ℕ}
    (hp : p ∈ nmsSelect boxes scores t m) : p < scores.length := by
  have h1 := nmsStep_subset boxes t _ m _ p hp
  exact List.mem_range.mp (mem_sortDesc.mp h1)

theorem nmsSelect_pairwise (boxes : List Box) (scores : List ℚ) (t : ℚ) (m : ℕ) :
    (nmsSelect boxes scores t m).Pairwise
      (fun p q => iou (boxes.getD p boxZero) (boxes.getD q boxZero) ≤ t) :=
  nmsStep_pairwise boxes t _ m _

theorem pairwise_of_mem_ne {α : Type} {R : α → α → Prop}
    (hsym : ∀ x y, R x y → R y x) :
    ∀ {l : List α}, l.Pairwise R → ∀ {a b : α}, a ∈ l → b ∈ l → a ≠ b → R a b := by
  intro l hl
  induction hl with
  | nil => intro a b ha; simp at ha
  | cons hx _ ih =>
    intro a b ha hb hab
    rcases List.mem_cons.mp ha with rfl | ha2
    · rcases List.mem_cons.mp hb with rfl | hb2
      · exact absurd rfl hab
      · exact hx b hb2
    · rcases List.mem_cons.mp hb with rfl | hb2
      · exact hsym _ _ (hx a ha2)
      · exact ih ha2 hb2 hab

theorem classIxs_mem {cids : List ℕ} {cid j : ℕ} (hj : j ∈ classIxs cids cid) :
    j < cids.length ∧ cids.getD j 0 = cid := by
  have h := List.mem_filter.mp hj
  exact ⟨List.mem_range.mp h.1, of_decide_eq_true h.2⟩

/-! ### Keep-set lemmas -/

theorem mem_bgKeep {cids : List ℕ} {i : ℕ} (h : i ∈ bgKeep cids) :
    i < cids.length ∧ 0 < cids.getD i 0 := by
  have h2 := List.mem_filter.mp h
  exact ⟨List.mem_range.mp h2.1, of_decide_eq_true h2.2⟩

theorem bgKeep_nodup (cids : List ℕ) : (bgKeep cids).Nodup :=
  List.Nodup.filter _ (List.nodup_range _)

theorem keepPre_subset_bg {mc : Option ℚ} {cids : List ℕ} {scores : List ℚ} {i : ℕ}
    (h : i ∈ keepPre mc cids scores) : i ∈ bgKeep cids := by
  cases mc with
  | none => exact h
  | some c =>
    by_cases hc : c = 0
    · simpa [keepPre, hc] using h
    · have h2 : i ∈ setIntersect (bgKeep cids) (confKeep scores c) := by
        simpa [keepPre, hc] using h
      exact List.mem_of_mem_filter h2

theorem keepPre_nodup (mc : Option ℚ) (cids : List ℕ) (scores : List ℚ) :
    (keepPre mc cids scores).Nodup := by
  cases mc with
  | none => exact bgKeep_nodup cids
  | some c =>
    by_cases hc : c = 0
    · simpa [keepPre, hc] using bgKeep_nodup cids
    · simpa [keepPre, hc] using List.Nodup.filter _ (bgKeep_nodup cids)

theorem keepAfterNMS_subset {mc : Option ℚ} {cids : List ℕ} {scores : List ℚ}
    {refined : List Box} {t : ℚ} {m i : ℕ}
    (h : i ∈ keepAfterNMS mc cids scores refined t m) :
    i ∈ keepPre mc cids scores := List.mem_of_mem_filter h

theorem keepAfterNMS_mem_nms {mc : Option ℚ} {cids : List ℕ} {scores : List ℚ}
    {refined : List Box} {t : ℚ} {m i : ℕ}
    (h : i ∈ keepAfterNMS mc cids scores refined t m) :
    i ∈ nmsKeepOf (keepPre mc cids scores) cids scores refined t m := by
  have h2 := List.mem_filter.mp h
  exact of_decide_eq_true h2.2

theorem keepAfterNMS_nodup (mc : Option ℚ) (cids : List ℕ) (scores : List ℚ)
    (refined : List Box) (t : ℚ) (m : ℕ) :
    (keepAfterNMS mc cids scores refined t m).Nodup :=
  List.Nodup.filter _ (keepPre_nodup mc cids scores)

theorem topKSel_subset {scores : List ℚ} {keep : List ℕ} {rc a : ℕ}
    (ha : a ∈ topKSel scores keep rc) : a ∈ keep := by
  simp only [topKSel, gather] at ha
  rcases List.mem_map.mp ha with ⟨j, hj, rfl⟩
  have hj2 : j ∈ sortDesc (fun p => (List.map (fun j => scores.getD j 0) keep).getD p 0)
      (List.range (List.map (fun j => scores.getD j 0) keep).length) :=
    List.mem_of_mem_take hj
  have hj3 : j < keep.length := by
    have := List.mem_range.mp (mem_sortDesc.mp hj2)
    simpa using this
  exact getD_lt_mem 0 keep j hj3

theorem topKSel_length_le (scores : List ℚ) (keep : List ℕ) (rc : ℕ) :
    (topKSel scores keep rc).length ≤ rc := by
  simp only [topKSel, gather, List.length_map, List.length_take]
  exact le_trans (min_le_left _ _) (min_le_right _ _)

theorem topKSel_nodup (scores : List ℚ) {keep : List ℕ} (rc : ℕ) (hk : keep.Nodup) :
    (topKSel scores keep rc).Nodup := by
  simp only [topKSel, gather]
  set csk := List.map (fun j => scores.getD j 0) keep with hcsk
  have hlen : csk.length = keep.length := by simp [hcsk]
  have hnd : ((sortDesc (fun p => csk.getD p 0) (List.range csk.length)).take
      (min csk.length rc)).Nodup :=
    List.Nodup.sublist (List.take_sublist _ _)
      (sortDesc_nodup _ (List.nodup_range _))
  refine List.Nodup.map_on ?_ hnd
  intro j1 hj1 j2 hj2 he
  have hj1b : j1 < keep.length := by
    have := List.mem_range.mp (mem_sortDesc.mp (List.mem_of_mem_take hj1))
    omega
  have hj2b : j2 < keep.length := by
    have := List.mem_range.mp (mem_sortDesc.mp (List.mem_of_mem_take hj2))
    omega
  exact getD_inj 0 hk hj1b hj2b he

theorem nmsKeepOf_mem {keep cids : List ℕ} {scores : List ℚ} {refined : List Box}
    {t : ℚ} {m a : ℕ} (h : a ∈ nmsKeepOf keep cids scores refined t m) :
    ∃ cid, a ∈ nmsKeepMap keep (gather 0 cids keep) (gather 0 scores keep)
      (gather boxZero refined keep) t m cid := by
  simp only [nmsKeepOf] at h
  rcases List.mem_flatten.mp h with ⟨L, hL, haL⟩
  rcases List.mem_map.mp hL with ⟨cid, _, rfl⟩
  exact ⟨cid, haL⟩

theorem nmsKeepMap_mem {keep pcids : List ℕ} {pscores : List ℚ} {prois : List Box}
    {t : ℚ} {m cid a : ℕ} (h : a ∈ nmsKeepMap keep pcids pscores prois t m cid) :
    ∃ p, p ∈ nmsSelect (gather boxZero prois (classIxs pcids cid))
        (gather 0 pscores (classIxs pcids cid)) t m ∧
      a = keep.getD ((classIxs pcids cid).getD p 0) 0 := by
  simp only [nmsKeepMap, gather] at h
  rcases List.mem_map.mp h with ⟨u, hu, rfl⟩
  rcases List.mem_map.mp hu with ⟨p, hp, rfl⟩
  exact ⟨p, by simpa [gather] using hp, rfl⟩

/-- An index kept by the class-`cid` suppression pass has class id `cid`:
the pass only draws from positions whose gathered class id equals `cid`,
and those positions map back through `keep`. -/
theorem nmsKeepMap_class {keep cids : List ℕ} {scores : List ℚ}
    {refined : List Box} {t : ℚ} {m cid a : ℕ}
    (h : a ∈ nmsKeepMap keep (gather 0 cids keep) (gather 0 scores keep)
      (gather boxZero refined keep) t m cid) :
    cids.getD a 0 = cid := by
  rcases nmsKeepMap_mem h with ⟨p, hp, ha⟩
  set ixs := classIxs (gather 0 cids keep) cid with hixs
  have hp1 : p < ixs.length := by
    have := nmsSelect_mem_lt hp
    simpa [gather_length] using this
  have hj := getD_lt_mem 0 ixs p hp1
  rcases classIxs_mem hj with ⟨hj1, hj2⟩
  have hjk : ixs.getD p 0 < keep.length := by
    simpa [gather_length] using hj1
  rw [gather_getD 0 0 cids keep _ hjk] at hj2
  rw [ha]
  exact hj2

/-- Two distinct indices kept by the same class suppression pass have
IoU at most `t` on their decoded boxes. -/
theorem nmsKeepMap_iou {keep cids : List ℕ} {scores : List ℚ}
    {refined : List Box} {t : ℚ} {m cid a b : ℕ} (hab : a ≠ b)
    (ha : a ∈ nmsKeepMap keep (gather 0 cids keep) (gather 0 scores keep)
      (gather boxZero refined keep) t m cid)
    (hb : b ∈ nmsKeepMap keep (gather 0 cids keep) (gather 0 scores keep)
      (gather boxZero refined keep) t m cid) :
    iou (refined.getD a boxZero) (refined.getD b boxZero) ≤ t := by
  rcases nmsKeepMap_mem ha with ⟨p, hp, hpa⟩
  rcases nmsKeepMap_mem hb with ⟨q, hq, hqb⟩
  set ixs := classIxs (gather 0 cids keep) cid with hixs
  set prois := gather boxZero refined keep with hprois
  have hpq : p ≠ q := by
    intro he
    apply hab
    rw [hpa, hqb, he]
  have hpair := nmsSelect_pairwise (gather boxZero prois ixs)
    (gather 0 (gather 0 scores keep) ixs) t m
  have hsym : ∀ x y,
      iou ((gather boxZero prois ixs).getD x boxZero)
          ((gather boxZero prois ixs).getD y boxZero) ≤ t →
      iou ((gather boxZero prois ixs).getD y boxZero)
          ((gather boxZero prois ixs).getD x boxZero) ≤ t := by
    intro x y hxy
    rw [iou_comm]
    exact hxy
  have hR := pairwise_of_mem_ne hsym hpair hp hq hpq
  have hp1 : p < ixs.length := by
    simpa [gather_length] using nmsSelect_mem_lt hp
  have hq1 : q < ixs.length := by
    simpa [gather_length] using nmsSelect_mem_lt hq
  rw [gather_getD boxZero boxZero prois ixs p hp1,
      gather_getD boxZero boxZero prois ixs q hq1] at hR
  have hjp := classIxs_mem (getD_lt_mem 0 ixs p hp1)
  have hjq := classIxs_mem (getD_lt_mem 0 ixs q hq1)
  have hjpk : ixs.getD p 0 < keep.length := by
    simpa [gather_length] using hjp.1
  have hjqk : ixs.getD q 0 < keep.length := by
    simpa [gather_length] using hjq.1
  rw [hprois, gather_getD boxZero boxZero refined keep _ hjpk,
      gather_getD boxZero boxZero refined keep _ hjqk] at hR
  rw [hpa, hqb]
  exact hR

theorem decodeCore_mem {cfg : Cfg} {cids : List ℕ} {scores : List ℚ}
    {refined : List Box} {H W : ℚ} {d : Detection}
    (hd : d ∈ decodeCore cfg cids scores refined H W) :
    ∃ i, i ∈ topKSel scores
        (keepAfterNMS cfg.minConfidence cids scores refined
          cfg.nmsThreshold cfg.maxInstances)
        cfg.detectionMaxInstances ∧
      d = mkDet H W refined cids scores i := by
  simp only [decodeCore] at hd
  rcases List.mem_map.mp hd with ⟨i, hi, rfl⟩
  exact ⟨i, hi, rfl⟩

theorem getD_map_lt {α β : Type} (g : α → β) (d : β) (d2 : α) :
    ∀ (l : List α) (i : ℕ), i < (l.map g).length →
      (l.map g).getD i d = g (l.getD i d2) := by
  intro l
  induction l with
  | nil => intro i h; simp at h
  | cons x xs ih =>
    intro i h
    cases i with
    | zero => rfl
    | succ i2 => exact ih i2 (by simpa using h)

theorem getD_zipWith_lt {α β γ : Type} (f : α → β → γ) (d : γ) (da : α) (db : β) :
    ∀ (as2 : List α) (bs : List β) (i : ℕ), i < (List.zipWith f as2 bs).length →
      (List.zipWith f as2 bs).getD i d = f (as2.getD i da) (bs.getD i db) := by
  intro as2
  induction as2 with
  | nil => intro bs i h; simp at h
  | cons a as3 ih =>
    intro bs i h
    cases bs with
    | nil => simp at h
    | cons b bs2 =>
      cases i with
      | zero => rfl
      | succ i2 => exact ih bs2 i2 (by simpa using h)

/-- Clipping to the window `(0, 0, hy, hx)` yields coordinates inside the
window, preserving the corner order. -/
theorem bboxClip_bounds (hy hx : ℚ) (hhy : 0 ≤ hy) (hhx : 0 ≤ hx) (b : Box)
    (hb1 : b.y1 ≤ b.y2) (hb2 : b.x1 ≤ b.x2) :
    0 ≤ (bboxClip ⟨0, 0, hy, hx⟩ b).y1 ∧
    (bboxClip ⟨0, 0, hy, hx⟩ b).y1 ≤ (bboxClip ⟨0, 0, hy, hx⟩ b).y2 ∧
    (bboxClip ⟨0, 0, hy, hx⟩ b).y2 ≤ hy ∧
    0 ≤ (bboxClip ⟨0, 0, hy, hx⟩ b).x1 ∧
    (bboxClip ⟨0, 0, hy, hx⟩ b).x1 ≤ (bboxClip ⟨0, 0, hy, hx⟩ b).x2 ∧
    (bboxClip ⟨0, 0, hy, hx⟩ b).x2 ≤ hx := by
  simp only [bboxClip]
  refine ⟨le_max_right _ _,
    max_le_max (min_le_min hb1 le_rfl) le_rfl,
    max_le (min_le_right _ _) hhy,
    le_max_right _ _,
    max_le_max (min_le_min hb2 le_rfl) le_rfl,
    max_le (min_le_right _ _) hhx⟩

/-- With a nonnegative size scaling, decoding preserves the corner order
of a well-formed region. -/
theorem delta2bbox_order (e : ℚ → ℚ) (he : ∀ x, 0 ≤ e x) (r : Box) (dlt : Delta)
    (means stds : Delta) (h1 : r.y1 ≤ r.y2) (h2 : r.x1 ≤ r.x2) :
    (delta2bbox e r dlt means stds).y1 ≤ (delta2bbox e r dlt means stds).y2 ∧
    (delta2bbox e r dlt means stds).x1 ≤ (delta2bbox e r dlt means stds).x2 := by
  simp only [delta2bbox]
  constructor
  · have hh : 0 ≤ (r.y2 - r.y1) * e (dlt.dh * stds.dh + means.dh) :=
      mul_nonneg (by linarith) (he _)
    linarith
  · have hw : 0 ≤ (r.x2 - r.x1) * e (dlt.dw * stds.dw + means.dw) :=
      mul_nonneg (by linarith) (he _)
    linarith

/-- Every row of the decoded-and-clipped box list (including the default
used for out-of-range gathers) lies inside the normalized window. -/
theorem refinedRoisOf_getD_bounds (e : ℚ → ℚ) (cfg : Cfg)
    (probs : List (List ℚ)) (deltas : List (List Delta)) (rois : List Box)
    (H W : ℚ) (he : ∀ x, 0 ≤ e x) (hH : 0 < H) (hW : 0 < W)
    (hr : ∀ r ∈ rois, r.y1 ≤ r.y2 ∧ r.x1 ≤ r.x2) (i : ℕ) :
    0 ≤ ((refinedRoisOf e cfg probs deltas rois H W).getD i boxZero).y1 ∧
    ((refinedRoisOf e cfg probs deltas rois H W).getD i boxZero).y1 ≤
      ((refinedRoisOf e cfg probs deltas rois H W).getD i boxZero).y2 ∧
    ((refinedRoisOf e cfg probs deltas rois H W).getD i boxZero).y2 ≤ 1 ∧
    0 ≤ ((refinedRoisOf e cfg probs deltas rois H W).getD i boxZero).x1 ∧
    ((refinedRoisOf e cfg probs deltas rois H W).getD i boxZero).x1 ≤
      ((refinedRoisOf e cfg probs deltas rois H W).getD i boxZero).x2 ∧
    ((refinedRoisOf e cfg probs deltas rois H W).getD i boxZero).x2 ≤ 1 := by
  have hwin : window H W = ⟨0, 0, 1, 1⟩ := by
    simp [window, div_self hH.ne', div_self hW.ne']
  by_cases hi : i < (refinedRoisOf e cfg probs deltas rois H W).length
  · rw [refinedRoisOf, getD_map_lt _ boxZero boxZero _ i (by simpa [refinedRoisOf] using hi)]
    have hi2 : i < (List.zipWith
        (fun r d => delta2bbox e r d cfg.targetMeans cfg.targetStds) rois
        (deltasSpecific deltas (probs.map argmaxIdx))).length := by
      simpa [refinedRoisOf] using hi
    rw [getD_zipWith_lt _ boxZero boxZero deltaZero _ _ i hi2]
    have hilen : i < rois.length := by
      rw [List.length_zipWith] at hi2
      omega
    have hroi := hr (rois.getD i boxZero) (getD_lt_mem boxZero rois i hilen)
    have hord := delta2bbox_order e he (rois.getD i boxZero)
      ((deltasSpecific deltas (probs.map argmaxIdx)).getD i deltaZero)
      cfg.targetMeans cfg.targetStds hroi.1 hroi.2
    rw [hwin]
    exact bboxClip_bounds 1 1 (by norm_num) (by norm_num) _ hord.1 hord.2
  · rw [List.getD_eq_default _ _ (by omega)]
    simp [boxZero]

/-! ### Concrete scenario data (spec section 8) -/

/-- The 3-region, 2-class probabilities of the spec's concrete scenario. -/
def scenProbs : List (List ℚ) := [[9/10, 1/10], [1/20, 19/20], [1/10, 9/10]]

/-- All-zero deltas for 3 regions and 2 classes. -/
def scenDeltas : List (List Delta) :=
  [[deltaZero, deltaZero], [deltaZero, deltaZero], [deltaZero, deltaZero]]

/-- Proposals of the concrete scenario: region 1 apart, regions 2 and 3
heavily overlapping (IoU 9/10). -/
def scenRois : List Box := [⟨0, 0, 1/2, 1/2⟩, ⟨0, 0, 1, 1⟩, ⟨0, 0, 1, 9/10⟩]

/-! ### Claim theorems -/

/-- Claim C1: with 3 regions, 2 classes, scores
`[[0.9,0.1],[0.05,0.95],[0.1,0.9]]`, all-zero deltas, and regions 2 and 3
overlapping with IoU above 0.3, single-image decoding under the defaults
returns exactly one detection, with class id 1 and score 0.95: region 1 is
dropped as background and region 3 is suppressed by NMS against region 2.
The hypothesis `e 0 = 1` is the exponential evaluated at the zero delta. -/
theorem concrete_scenario_single_detection (e : ℚ → ℚ) (he : e 0 = 1) :
    3/10 < iou ⟨0, 0, 1, 1⟩ ⟨0, 0, 1, 9/10⟩ ∧
    getBBoxesSingle e cfgDefault scenProbs scenDeltas scenRois (100, 100)
      = [⟨0, 0, 100, 100, 1, 19/20⟩] := by
  constructor
  · with_unfolding_all decide
  · show decodeCore cfgDefault (scenProbs.map argmaxIdx) (scenProbs.map topScore)
      (refinedRoisOf e cfgDefault scenProbs scenDeltas scenRois 100 100) 100 100
      = [⟨0, 0, 100, 100, 1, 19/20⟩]
    have hds : deltasSpecific scenDeltas (scenProbs.map argmaxIdx)
        = [deltaZero, deltaZero, deltaZero] := by with_unfolding_all decide
    have hm : cfgDefault.targetMeans = deltaZero := rfl
    have href : refinedRoisOf e cfgDefault scenProbs scenDeltas scenRois 100 100
        = scenRois := by
      rw [refinedRoisOf, hds, hm,
        show scenRois = [(⟨0, 0, 1/2, 1/2⟩ : Box), ⟨0, 0, 1, 1⟩, ⟨0, 0, 1, 9/10⟩] from rfl]
      simp only [List.zipWith_cons_cons, List.zipWith_nil_right,
        delta2bbox_zero e he]
      with_unfolding_all decide
    rw [href]
    with_unfolding_all decide

/-- Witness for C1 at the concrete exponential surrogate. -/
theorem concrete_scenario_single_detection_witness :
    ((fun _ : ℚ => (1 : ℚ)) 0 = 1) ∧
    (3/10 < iou ⟨0, 0, 1, 1⟩ ⟨0, 0, 1, 9/10⟩ ∧
     getBBoxesSingle (fun _ => 1) cfgDefault scenProbs scenDeltas scenRois (100, 100)
       = [⟨0, 0, 100, 100, 1, 19/20⟩]) :=
  ⟨rfl, concrete_scenario_single_detection (fun _ => 1) rfl⟩

/-- Claim C2: the body of `_get_bboxes_single` reads the name `deltas` at
line 119 and the name `config` at line 166; neither is among its parameters
or assigned locals, and neither is a module-level name of `bbox_head.py`,
so Python name resolution cannot bind them and every call raises an
unbound-name error before returning. -/
theorem get_bboxes_single_unbound_names :
    "deltas" ∉ getBBoxesSingleLocalNames ∧
    "deltas" ∉ bboxHeadModuleLevelNames ∧
    "config" ∉ getBBoxesSingleLocalNames ∧
    "config" ∉ bboxHeadModuleLevelNames := by
  decide

/-- Claim C3: the returned detection sequence never has more than
`detectionMaxInstances` entries (the `config.DETECTION_MAX_INSTANCES`
read at line 166, the spec's `maxTotalDetections`). -/
theorem detections_length_le (e : ℚ → ℚ) (cfg : Cfg) (probs : List (List ℚ))
    (deltas : List (List Delta)) (rois : List Box) (shape : ℚ × ℚ) :
    (getBBoxesSingle e cfg probs deltas rois shape).length ≤
      cfg.detectionMaxInstances := by
  simp only [getBBoxesSingle, decodeCore, List.length_map]
  exact topKSel_length_le _ _ _

/-- Witness for C3 on the concrete scenario. -/
theorem detections_length_le_witness :
    (getBBoxesSingle (fun _ => 1) cfgDefault scenProbs scenDeltas scenRois
      (100, 100)).length ≤ 100 :=
  detections_length_le (fun _ => 1) cfgDefault scenProbs scenDeltas scenRois (100, 100)

/-- Two-region, 2-class probabilities with both regions confidently in
class 1. -/
def twoProbs : List (List ℚ) := [[1/20, 19/20], [1/10, 9/10]]

/-- All-zero deltas for 2 regions and 2 classes. -/
def twoDeltas : List (List Delta) :=
  [[deltaZero, deltaZero], [deltaZero, deltaZero]]

/-- Two proposals whose IoU is exactly 3/10, the default NMS threshold. -/
def exactRois : List Box := [⟨0, 0, 1, 1⟩, ⟨0, 0, 1, 3/10⟩]

/-- Two disjoint proposals (IoU 0). -/
def apartRois : List Box := [⟨0, 0, 1/2, 1/2⟩, ⟨1/2, 1/2, 1, 1⟩]

/-- Counterexample to C4 as stated: two same-class detections whose boxes
have IoU exactly equal to `nmsThreshold` are both returned, because the
suppression condition of `tf.image.non_max_suppression` is strict
(`IoU > threshold`), so the strict inequality `IoU < threshold` fails on
the returned pair. -/
theorem nms_iou_not_strict_cex :
    getBBoxesSingle (fun _ => 1) cfgDefault twoProbs twoDeltas exactRois (1, 1)
      = [⟨0, 0, 1, 1, 1, 19/20⟩, ⟨0, 0, 1, 3/10, 1, 9/10⟩] ∧
    (⟨0, 0, 1, 1, 1, 19/20⟩ : Detection).classId
      = (⟨0, 0, 1, 3/10, 1, 9/10⟩ : Detection).classId ∧
    ¬ iou (Detection.box ⟨0, 0, 1, 1, 1, 19/20⟩)
        (Detection.box ⟨0, 0, 1, 3/10, 1, 9/10⟩) < cfgDefault.nmsThreshold := by
  refine ⟨?_, rfl, ?_⟩
  · with_unfolding_all decide
  · with_unfolding_all decide

theorem decodeCore_pairwise_iou (cfg : Cfg) (cids : List ℕ) (scores : List ℚ)
    (refined : List Box) (H W : ℚ) (hH : 0 < H) (hW : 0 < W)
    {i j : ℕ} {d1 d2 : Detection} (hij : i ≠ j)
    (h1 : (decodeCore cfg cids scores refined H W).get? i = some d1)
    (h2 : (decodeCore cfg cids scores refined H W).get? j = some d2)
    (hc : d1.classId = d2.classId) :
    iou d1.box d2.box ≤ cfg.nmsThreshold := by
  simp only [decodeCore] at h1 h2
  rw [List.get?_map] at h1 h2
  rcases Option.map_eq_some'.mp h1 with ⟨a, hga, hfa⟩
  rcases Option.map_eq_some'.mp h2 with ⟨b, hgb, hfb⟩
  have hnd3 : (topKSel scores
      (keepAfterNMS cfg.minConfidence cids scores refined
        cfg.nmsThreshold cfg.maxInstances)
      cfg.detectionMaxInstances).Nodup :=
    topKSel_nodup scores _ (keepAfterNMS_nodup _ _ _ _ _ _)
  have hab : a ≠ b := by
    intro hEq
    apply hij
    refine get?_inj_of_nodup hnd3 hga ?_
    rw [hEq]
    exact hgb
  have ha2 := topKSel_subset (List.get?_mem hga)
  have hb2 := topKSel_subset (List.get?_mem hgb)
  have haNK := keepAfterNMS_mem_nms ha2
  have hbNK := keepAfterNMS_mem_nms hb2
  rcases nmsKeepOf_mem haNK with ⟨ca, haP⟩
  rcases nmsKeepOf_mem hbNK with ⟨cb, hbP⟩
  have hclsa := nmsKeepMap_class haP
  have hclsb := nmsKeepMap_class hbP
  have hda : d1.classId = cids.getD a 0 := by rw [← hfa]; rfl
  have hdb : d2.classId = cids.getD b 0 := by rw [← hfb]; rfl
  have hcc : ca = cb := by rw [← hclsa, ← hclsb, ← hda, ← hdb, hc]
  rw [← hcc] at hbP
  have hiou := nmsKeepMap_iou hab haP hbP
  have hba : d1.box = scaleBox H W (refined.getD a boxZero) := by rw [← hfa]; rfl
  have hbb : d2.box = scaleBox H W (refined.getD b boxZero) := by rw [← hfb]; rfl
  rw [hba, hbb, iou_scale H W hH hW]
  exact hiou

/-- Claim C4 (amended): two detections at distinct output positions that
share a class id have boxes whose IoU is at most (not strictly below) the
NMS threshold; equality is possible, since the greedy pass only suppresses
overlaps strictly above the threshold. -/
theorem nms_pairwise_iou_le (e : ℚ → ℚ) (cfg : Cfg) (probs : List (List ℚ))
    (deltas : List (List Delta)) (rois : List Box) (H W : ℚ)
    (hH : 0 < H) (hW : 0 < W) {i j : ℕ} {d1 d2 : Detection} (hij : i ≠ j)
    (h1 : (getBBoxesSingle e cfg probs deltas rois (H, W)).get? i = some d1)
    (h2 : (getBBoxesSingle e cfg probs deltas rois (H, W)).get? j = some d2)
    (hc : d1.classId = d2.classId) :
    iou d1.box d2.box ≤ cfg.nmsThreshold :=
  decodeCore_pairwise_iou cfg (probs.map argmaxIdx) (probs.map topScore)
    (refinedRoisOf e cfg probs deltas rois H W) H W hH hW hij h1 h2 hc

/-- Witness for the amended C4 on two disjoint kept detections. -/
theorem nms_pairwise_iou_le_witness :
    iou (Detection.box ⟨0, 0, 50, 50, 1, 19/20⟩)
      (Detection.box ⟨50, 50, 100, 100, 1, 9/10⟩) ≤ cfgDefault.nmsThreshold :=
  @nms_pairwise_iou_le (fun _ => 1) cfgDefault twoProbs twoDeltas apartRois
    100 100 (by norm_num) (by norm_num) 0 1
    ⟨0, 0, 50, 50, 1, 19/20⟩ ⟨50, 50, 100, 100, 1, 9/10⟩ (by decide)
    (by with_unfolding_all decide) (by with_unfolding_all decide) rfl

/-- A single degenerate proposal whose corners are out of order
(y1 > y2). -/
def degenRois : List Box := [⟨4/5, 1/10, 1/5, 9/10⟩]

/-- One-region, 2-class probabilities with a confident class-1 region. -/
def oneProbs : List (List ℚ) := [[1/20, 19/20]]

/-- All-zero deltas for 1 region and 2 classes. -/
def oneDeltas : List (List Delta) := [[deltaZero, deltaZero]]

/-- Counterexample to C5 as stated: a degenerate input region with
`y1 > y2` passes through decoding, clipping (each corner is inside `[0,1]`
and is clamped independently) and suppression unchanged, so the returned
detection violates `y1 ≤ y2`. -/
theorem detections_bounds_cex :
    getBBoxesSingle (fun _ => 1) cfgDefault oneProbs oneDeltas degenRois (1, 1)
      = [⟨4/5, 1/10, 1/5, 9/10, 1, 19/20⟩] ∧
    ¬ ((4 : ℚ)/5 ≤ 1/5) := by
  constructor
  · with_unfolding_all decide
  · norm_num

/-- Claim C5 (amended): when every input region is well formed
(`y1 ≤ y2`, `x1 ≤ x2`), the image dimensions are positive and the size
scaling `e` is nonnegative (as the exponential is), every returned
detection satisfies `0 ≤ y1 ≤ y2 ≤ H` and `0 ≤ x1 ≤ x2 ≤ W`. -/
theorem detections_in_bounds (e : ℚ → ℚ) (cfg : Cfg) (probs : List (List ℚ))
    (deltas : List (List Delta)) (rois : List Box) (H W : ℚ)
    (hH : 0 < H) (hW : 0 < W) (he : ∀ x, 0 ≤ e x)
    (hr : ∀ r ∈ rois, r.y1 ≤ r.y2 ∧ r.x1 ≤ r.x2)
    {d : Detection} (hd : d ∈ getBBoxesSingle e cfg probs deltas rois (H, W)) :
    0 ≤ d.y1 ∧ d.y1 ≤ d.y2 ∧ d.y2 ≤ H ∧ 0 ≤ d.x1 ∧ d.x1 ≤ d.x2 ∧ d.x2 ≤ W := by
  have hd2 : d ∈ decodeCore cfg (probs.map argmaxIdx) (probs.map topScore)
      (refinedRoisOf e cfg probs deltas rois H W) H W := hd
  rcases decodeCore_mem hd2 with ⟨i, _, rfl⟩
  obtain ⟨h1, h2, h3, h4, h5, h6⟩ :=
    refinedRoisOf_getD_bounds e cfg probs deltas rois H W he hH hW hr i
  exact ⟨mul_nonneg hH.le h1,
    mul_le_mul_of_nonneg_left h2 hH.le,
    (mul_le_mul_of_nonneg_left h3 hH.le).trans_eq (mul_one H),
    mul_nonneg hW.le h4,
    mul_le_mul_of_nonneg_left h5 hW.le,
    (mul_le_mul_of_nonneg_left h6 hW.le).trans_eq (mul_one W)⟩

/-- Witness for the amended C5 on the concrete scenario. -/
theorem detections_in_bounds_witness :
    0 ≤ (⟨0, 0, 100, 100, 1, 19/20⟩ : Detection).y1 ∧
    (⟨0, 0, 100, 100, 1, 19/20⟩ : Detection).y1
      ≤ (⟨0, 0, 100, 100, 1, 19/20⟩ : Detection).y2 ∧
    (⟨0, 0, 100, 100, 1, 19/20⟩ : Detection).y2 ≤ 100 ∧
    0 ≤ (⟨0, 0, 100, 100, 1, 19/20⟩ : Detection).x1 ∧
    (⟨0, 0, 100, 100, 1, 19/20⟩ : Detection).x1
      ≤ (⟨0, 0, 100, 100, 1, 19/20⟩ : Detection).x2 ∧
    (⟨0, 0, 100, 100, 1, 19/20⟩ : Detection).x2 ≤ 100 :=
  detections_in_bounds (fun _ => 1) cfgDefault scenProbs scenDeltas scenRois
    100 100 (by norm_num) (by norm_num) (fun _ => by norm_num)
    (by with_unfolding_all decide) (by with_unfolding_all decide)

/-- Claim C6: no returned detection carries the background class id 0;
the final keep set only contains indices that passed the
`class_ids > 0` filter. -/
theorem detections_classId_ne_zero (e : ℚ → ℚ) (cfg : Cfg)
    (probs : List (List ℚ)) (deltas : List (List Delta)) (rois : List Box)
    (shape : ℚ × ℚ) {d : Detection}
    (hd : d ∈ getBBoxesSingle e cfg probs deltas rois shape) :
    d.classId ≠ 0 := by
  have hd2 : d ∈ decodeCore cfg (probs.map argmaxIdx) (probs.map topScore)
      (refinedRoisOf e cfg probs deltas rois shape.1 shape.2)
      shape.1 shape.2 := hd
  rcases decodeCore_mem hd2 with ⟨i, hi, rfl⟩
  have h1 := keepPre_subset_bg (keepAfterNMS_subset (topKSel_subset hi))
  have h2 := (mem_bgKeep h1).2
  intro h0
  have h3 : (probs.map argmaxIdx).getD i 0 = 0 := h0
  omega

/-- Witness for C6 on the concrete scenario. -/
theorem detections_classId_ne_zero_witness :
    (⟨0, 0, 100, 100, 1, 19/20⟩ : Detection).classId ≠ 0 :=
  detections_classId_ne_zero (fun _ => 1) cfgDefault scenProbs scenDeltas
    scenRois (100, 100) (by with_unfolding_all decide)

theorem keepPre_nil (mc : Option ℚ) (scores : List ℚ) :
    keepPre mc [] scores = [] := by
  cases mc with
  | none => rfl
  | some c => by_cases hc : c = 0 <;> simp [keepPre, hc, bgKeep, setIntersect]

/-- Claim C7: with zero regions, decoding returns the empty detection
sequence. -/
theorem empty_input_empty_output (e : ℚ → ℚ) (cfg : Cfg) (H W : ℚ) :
    getBBoxesSingle e cfg [] [] [] (H, W) = [] := by
  show decodeCore cfg [] [] (refinedRoisOf e cfg [] [] [] H W) H W = []
  simp only [decodeCore]
  rw [keepAfterNMS, keepPre_nil]
  simp [setIntersect, topKSel, gather, sortDesc]

/-- Witness for C7 at a concrete configuration and image shape. -/
theorem empty_input_empty_output_witness :
    getBBoxesSingle (fun _ => 1) cfgDefault [] [] [] (37, 53) = [] :=
  empty_input_empty_output (fun _ => 1) cfgDefault 37 53

/-- Claim C8: the keep set resulting from the per-class NMS stage is the
intersection of the NMS survivors with the pre-NMS keep set, hence a
subset of the surviving indices fed into NMS. -/
theorem nms_keep_subset_surviving (mc : Option ℚ) (cids : List ℕ)
    (scores : List ℚ) (refined : List Box) (t : ℚ) (m i : ℕ)
    (hi : i ∈ keepAfterNMS mc cids scores refined t m) :
    i ∈ keepPre mc cids scores :=
  keepAfterNMS_subset hi

/-- Witness for C8 on the concrete scenario's intermediate data. -/
theorem nms_keep_subset_surviving_witness :
    1 ∈ keepPre (some (7/10)) [0, 1, 1] [9/10, 19/20, 9/10] :=
  nms_keep_subset_surviving (some (7/10)) [0, 1, 1] [9/10, 19/20, 9/10]
    scenRois (3/10) 100 1 (by with_unfolding_all decide)

/-- Claim C9: decoding any region with the all-zero delta under the
default zero target means returns the region unchanged (exactly, over ℚ),
for any standard deviations, provided the abstracted exponential satisfies
`e 0 = 1`. -/
theorem delta2bbox_zero_id (e : ℚ → ℚ) (he : e 0 = 1) (stds : Delta)
    (r : Box) :
    delta2bbox e r deltaZero cfgDefault.targetMeans stds = r :=
  delta2bbox_zero e he stds r

/-- Witness for C9 at a concrete region and the default deviations. -/
theorem delta2bbox_zero_id_witness :
    ((fun _ : ℚ => (1 : ℚ)) 0 = 1) ∧
    delta2bbox (fun _ => 1) ⟨1/10, 1/5, 3/5, 7/10⟩ deltaZero
      cfgDefault.targetMeans cfgDefault.targetStds = ⟨1/10, 1/5, 3/5, 7/10⟩ :=
  ⟨rfl, delta2bbox_zero_id (fun _ => 1) rfl cfgDefault.targetStds
    ⟨1/10, 1/5, 3/5, 7/10⟩⟩

/-- Claim C10: the confidence filter is skipped exactly when
`min_confidence` is falsy (`None` or `0`), in which case the keep set is
the bare background filter (so arbitrarily low scores survive); when it is
truthy, the keep set is additionally intersected with the indices whose
score satisfies `min_confidence ≤ score`. -/
theorem min_confidence_truthiness (mc : Option ℚ) (cids : List ℕ)
    (scores : List ℚ) :
    ((mc = none ∨ mc = some 0) → keepPre mc cids scores = bgKeep cids) ∧
    (∀ c : ℚ, mc = some c → c ≠ 0 →
      keepPre mc cids scores = setIntersect (bgKeep cids) (confKeep scores c)) := by
  constructor
  · intro h
    rcases h with h | h <;> subst h <;> simp [keepPre]
  · intro c hmc hc
    subst hmc
    simp [keepPre, hc]

/-- Witness for C10: with threshold `0` the filter is skipped and the
score-0.01 region survives; with threshold `0.7` the intersection with the
confidence filter is applied. -/
theorem min_confidence_truthiness_witness :
    keepPre (some 0) [1] [1/100] = bgKeep [1] ∧
    keepPre (some (7/10)) [1] [1/100]
      = setIntersect (bgKeep [1]) (confKeep [1/100] (7/10)) :=
  ⟨(min_confidence_truthiness (some 0) [1] [1/100]).1 (Or.inr rfl),
   (min_confidence_truthiness (some (7/10)) [1] [1/100]).2 (7/10) rfl
     (by norm_num)⟩

end BBoxHead
